import Mathlib

/-!
Shallow embedding of `src/seqraii.h` (namespace `sequentialraii`):
the classes `SequentialRaii` and `Step<Init, Uninit>`.

Modelling choices:
* A C++ step stores two caller-supplied closures.  Within one run each
  closure is invoked at most once, so a step's init behaviour is modelled
  by a scripted outcome (`InitOutcome`): return `true`, return `false`,
  or throw; the undo behaviour by a Bool saying whether it throws.
* Side effects of the closures are modelled as an emitted trace of
  `Event`s: each invocation of a stored init/undo action appends one
  event carrying the step's identity.
* C++ exceptions are modelled with `Except`: the raw actions may return
  `Except.error`, and the `try`/`catch (...)` blocks of `Step::init` and
  `Step::uninit` discard that error, exactly as the source does.  All
  embedded functions are total, mirroring the `noexcept` contract.
* `std::vector<std::unique_ptr<StepBase>> m_steps` becomes `List Step`.
-/

/-- Scripted behaviour of a stored init action (`m_init` in the source):
it may return `true`, return `false`, or raise. -/
inductive InitOutcome where
  | retTrue : InitOutcome
  | retFalse : InitOutcome
  | throws : InitOutcome
deriving DecidableEq, Repr

/-- Observable invocation events: calling a step's stored init action or
its stored undo action. -/
inductive Event where
  | initCall (id : Nat) : Event
  | undoCall (id : Nat) : Event
deriving DecidableEq, Repr

/-- Embedding of `Step<Init, Uninit>` from `src/seqraii.h`: the
`m_isInitialized` flag plus scripted behaviour for the two stored
closures, and an identity used by the event trace. -/
structure Step where
  id : Nat
  initOutcome : InitOutcome
  undoThrows : Bool
  m_isInitialized : Bool
deriving DecidableEq, Repr

/-- Copy of a step with its `m_isInitialized` flag set to `b`. -/
def setFlag (s : Step) (b : Bool) : Step :=
  Step.mk s.id s.initOutcome s.undoThrows b

/-- Invoking the raw stored init action `m_init()`: emits one event and
either returns a Bool or raises (`Except.error`). -/
def runInitAction (s : Step) : Except Unit Bool × List Event :=
  (match s.initOutcome with
    | InitOutcome.retTrue => Except.ok true
    | InitOutcome.retFalse => Except.ok false
    | InitOutcome.throws => Except.error (),
   [Event.initCall s.id])

/-- Invoking the raw stored undo action `m_uninit()`: emits one event and
either returns cleanly or raises. -/
def runUndoAction (s : Step) : Except Unit Unit × List Event :=
  (if s.undoThrows then Except.error () else Except.ok (),
   [Event.undoCall s.id])

/-- Embedding of `Step::init` (src/seqraii.h:177-191): if not yet
initialized, invoke `m_init` inside `try`/`catch (...)` — on a normal
return assign the result to `m_isInitialized`, on a raise leave the flag
unchanged — then return `m_isInitialized`. -/
def Step.init (s : Step) : Step × List Event × Bool :=
  if s.m_isInitialized then
    (s, [], s.m_isInitialized)
  else
    match runInitAction s with
    | (Except.ok b, ev) => (setFlag s b, ev, b)
    | (Except.error _, ev) => (s, ev, s.m_isInitialized)

/-- Embedding of `Step::uninit` (src/seqraii.h:196-211): if initialized,
invoke `m_uninit` inside `try`/`catch (...)` discarding any error; in all
cases set `m_isInitialized = false`. -/
def Step.uninit (s : Step) : Step × List Event :=
  if s.m_isInitialized then
    match runUndoAction s with
    | (_, ev) => (setFlag s false, ev)
  else
    (setFlag s false, [])

/-- Embedding of `SequentialRaii` (src/seqraii.h:68-158): the ordered
step collection `m_steps`. -/
structure SequentialRaii where
  m_steps : List Step
deriving DecidableEq, Repr

/-- The loop of `SequentialRaii::initialize` (src/seqraii.h:129-136):
call `init()` on each step in order; stop at the first `false`.  Returns
the updated steps (later steps untouched), the trace, and the Bool that
the loop determines (`false` iff some `init()` returned `false`). -/
def initList : List Step → List Step × List Event × Bool
  | [] => ([], [], true)
  | s :: rest =>
    match Step.init s with
    | (s', ev, true) =>
      match initList rest with
      | (rest', evr, b) => (s' :: rest', ev ++ evr, b)
    | (s', ev, false) => (s' :: rest, ev, false)

/-- The loop of `SequentialRaii::uninitialize` (src/seqraii.h:146-149):
call `uninit()` on each step in reverse registration order.  The steps
stay in place; the trace lists later steps' events first. -/
def uninitList : List Step → List Step × List Event
  | [] => ([], [])
  | s :: rest =>
    match uninitList rest with
    | (rest', evr) =>
      match Step.uninit s with
      | (s', ev) => (s' :: rest', evr ++ ev)

/-- Embedding of `SequentialRaii::uninitialize` (src/seqraii.h:144-150). -/
def SequentialRaii.uninitAll (r : SequentialRaii) : SequentialRaii × List Event :=
  match uninitList r.m_steps with
  | (l, ev) => (SequentialRaii.mk l, ev)

/-- Embedding of `SequentialRaii::initialize` (src/seqraii.h:127-139):
run the forward loop; on the first failing step call `uninitialize` and
return `false`; otherwise return `true`. -/
def SequentialRaii.initAll (r : SequentialRaii) : SequentialRaii × List Event × Bool :=
  match initList r.m_steps with
  | (l, ev, true) => (SequentialRaii.mk l, ev, true)
  | (l, ev, false) =>
    match uninitList l with
    | (l', ev2) => (SequentialRaii.mk l', ev ++ ev2, false)

/-- Embedding of `SequentialRaii::addStep` (src/seqraii.h:110-120):
append one fresh step (flag `false`) at the end. -/
def SequentialRaii.addStep (r : SequentialRaii) (n : Nat) (o : InitOutcome) (u : Bool) : SequentialRaii :=
  SequentialRaii.mk (r.m_steps ++ [Step.mk n o u false])

/-- Embedding of the move-assignment operator
`SequentialRaii::operator=(SequentialRaii&&)` (src/seqraii.h:97-102):
run `uninitialize` on the destination, then `std::swap` the step lists.
Returns (new destination, new source, destination teardown trace). -/
def SequentialRaii.moveAssign (dest src : SequentialRaii) : SequentialRaii × SequentialRaii × List Event :=
  match SequentialRaii.uninitAll dest with
  | (dest', ev) => (SequentialRaii.mk src.m_steps, SequentialRaii.mk dest'.m_steps, ev)

/-- Embedding of the move constructor
`SequentialRaii(SequentialRaii&&)` (src/seqraii.h:91-95): the destination
starts with an empty `m_steps`, runs `uninitialize` on it, then swaps. -/
def SequentialRaii.moveConstruct (src : SequentialRaii) : SequentialRaii × SequentialRaii × List Event :=
  SequentialRaii.moveAssign (SequentialRaii.mk []) src

/-- Embedding of the destructor `~SequentialRaii` (src/seqraii.h:81-84):
its body runs `uninitialize`; the observable effect is that trace. -/
def SequentialRaii.destruct (r : SequentialRaii) : List Event :=
  (SequentialRaii.uninitAll r).2

/-- The consecutive-prefix shape of the succeeded flags: steps `[0..k)`
carry `true` and `[k..N)` carry `false` for some `k`. -/
def consecPrefixInv (l : List Step) : Prop :=
  ∃ k, k ≤ l.length ∧
    l.map (fun s => s.m_isInitialized) =
      List.replicate k true ++ List.replicate (l.length - k) false

/-! ## Basic characterizations -/

/-- `setFlag` is the identity when the flag already has that value. -/
theorem setFlag_eq_self (s : Step) (h : s.m_isInitialized = false) :
    setFlag s false = s := by
  cases s
  simp_all [setFlag]

/-- `setFlag` keeps the step identity. -/
theorem setFlag_id (s : Step) (b : Bool) : (setFlag s b).id = s.id := by
  cases s
  rfl

/-- Closed form of `Step.uninit`: the flag always ends `false`; the undo
action is invoked exactly when the flag was `true`, whether or not it
throws. -/
theorem step_uninit_eq (s : Step) :
    Step.uninit s =
      (setFlag s false,
       if s.m_isInitialized then [Event.undoCall s.id] else []) := by
  cases h : s.m_isInitialized <;>
    simp [Step.uninit, runUndoAction, h]

/-- Closed form of `Step.init`. -/
theorem step_init_eq (s : Step) :
    Step.init s =
      if s.m_isInitialized then (s, [], true)
      else
        match s.initOutcome with
        | InitOutcome.retTrue => (setFlag s true, [Event.initCall s.id], true)
        | InitOutcome.retFalse => (setFlag s false, [Event.initCall s.id], false)
        | InitOutcome.throws => (s, [Event.initCall s.id], false) := by
  cases h : s.m_isInitialized <;>
    cases ho : s.initOutcome <;>
      simp [Step.init, runInitAction, h, ho]

/-- If `Step.init` reports `true`, the resulting flag is `true`. -/
theorem step_init_true (s : Step) (h : (Step.init s).2.2 = true) :
    (Step.init s).1.m_isInitialized = true := by
  rw [step_init_eq] at *
  cases hf : s.m_isInitialized <;>
    cases ho : s.initOutcome <;>
      simp_all [setFlag]

/-- On a step whose flag is `true`, `Step.init` skips the action. -/
theorem step_init_skip (s : Step) (h : s.m_isInitialized = true) :
    Step.init s = (s, [], true) := by
  rw [step_init_eq, h]
  simp

/-- On a fresh step whose scripted outcome is not `retTrue`
(it returns `false` or raises), `Step.init` leaves the step unchanged,
emits one invocation event, and reports `false`. -/
theorem step_init_fail (s : Step) (hf : s.m_isInitialized = false)
    (ho : s.initOutcome ≠ InitOutcome.retTrue) :
    Step.init s = (s, [Event.initCall s.id], false) := by
  rw [step_init_eq, hf]
  cases h : s.initOutcome
  · exact absurd h ho
  · simp [setFlag_eq_self s hf]
  · simp

/-! ## The backward loop -/

/-- `uninitList` clears every flag and leaves the steps in place. -/
theorem uninitList_steps (l : List Step) :
    (uninitList l).1 = l.map (fun s => setFlag s false) := by
  induction l with
  | nil => rfl
  | cons s rest ih =>
    simp only [uninitList]
    rw [step_uninit_eq s]
    simp [ih]

/-- `uninitList` invokes the undo action of exactly the steps whose flag
is `true`, in reverse registration order, once each. -/
theorem uninitList_events (l : List Step) :
    (uninitList l).2 =
      ((l.filter (fun s => s.m_isInitialized)).map
        (fun s => Event.undoCall s.id)).reverse := by
  induction l with
  | nil => rfl
  | cons s rest ih =>
    simp only [uninitList]
    rw [step_uninit_eq s]
    cases h : s.m_isInitialized <;>
      simp [ih, List.filter_cons, h]

/-- Clearing already-clear flags is the identity on a step list. -/
theorem map_setFlag_false_eq (l : List Step)
    (h : ∀ t ∈ l, t.m_isInitialized = false) :
    l.map (fun s => setFlag s false) = l := by
  induction l with
  | nil => rfl
  | cons s rest ih =>
    have hs := h s (by simp)
    have hr := ih (fun t ht => h t (by simp [ht]))
    simp [setFlag_eq_self s hs, hr]

/-- A list with every flag `false` has no succeeded step. -/
theorem filter_flag_nil (l : List Step)
    (h : ∀ t ∈ l, t.m_isInitialized = false) :
    l.filter (fun s => s.m_isInitialized) = [] := by
  apply List.filter_eq_nil_iff.mpr
  intro t ht
  simp [h t ht]

/-- On a list with every flag `false`, `uninitList` is an observable
no-op: same steps, empty trace. -/
theorem uninitList_nop (l : List Step) (h : ∀ t ∈ l, t.m_isInitialized = false) :
    uninitList l = (l, []) := by
  have h1 := uninitList_steps l
  have h2 := uninitList_events l
  cases hu : uninitList l with
  | mk a b =>
    rw [hu] at h1 h2
    simp at h1 h2
    rw [map_setFlag_false_eq l h] at h1
    rw [filter_flag_nil l h] at h2
    simp at h2
    rw [h1, h2]

/-! ## The forward loop -/

/-- On a fresh step scripted to return `true`, `Step.init` invokes the
action once, marks the step succeeded and reports `true`. -/
theorem step_init_good (s : Step) (hf : s.m_isInitialized = false)
    (ho : s.initOutcome = InitOutcome.retTrue) :
    Step.init s = (setFlag s true, [Event.initCall s.id], true) := by
  rw [step_init_eq, hf, ho]
  simp

/-- On a list whose flags are all `true`, the forward loop skips every
step: nothing is invoked and the loop reports `true`. -/
theorem initList_all_skip (l : List Step)
    (h : ∀ t ∈ l, t.m_isInitialized = true) :
    initList l = (l, [], true) := by
  induction l with
  | nil => rfl
  | cons s rest ih =>
    have hs := step_init_skip s (h s (by simp))
    have hr := ih (fun t ht => h t (by simp [ht]))
    simp [initList, hs, hr]

/-- If the forward loop reports `true`, every resulting flag is `true`. -/
theorem initList_true_flags (l : List Step) (h : (initList l).2.2 = true) :
    ∀ t ∈ (initList l).1, t.m_isInitialized = true := by
  induction l with
  | nil =>
    intro t ht
    simp [initList] at ht
  | cons s rest ih =>
    intro t ht
    cases hi : Step.init s with
    | mk s' p =>
    cases p with
    | mk ev b =>
    cases hr : initList rest with
    | mk rest' q =>
    cases q with
    | mk evr b2 =>
    cases b with
    | false =>
      simp [initList, hi, hr] at h
    | true =>
      simp only [initList, hi, hr] at h ht
      rw [List.mem_cons] at ht
      cases ht with
      | inl hteq =>
        subst hteq
        have hs := step_init_true s (by rw [hi])
        rw [hi] at hs
        exact hs
      | inr htr =>
        have hrest := ih (by rw [hr]; exact h)
        rw [hr] at hrest
        exact hrest t htr

/-- Splitting the forward loop at a leading block of fresh, succeeding
steps: each is invoked once in registration order, marked succeeded, and
the loop continues on the remainder. -/
theorem initList_append_good (l₁ l₂ : List Step)
    (h : ∀ t ∈ l₁, t.m_isInitialized = false ∧ t.initOutcome = InitOutcome.retTrue) :
    initList (l₁ ++ l₂) =
      (l₁.map (fun t => setFlag t true) ++ (initList l₂).1,
       l₁.map (fun t => Event.initCall t.id) ++ (initList l₂).2.1,
       (initList l₂).2.2) := by
  induction l₁ with
  | nil => simp
  | cons s rest ih =>
    obtain ⟨hf, ho⟩ := h s (by simp)
    have hstep := step_init_good s hf ho
    have hr := ih (fun t ht => h t (by simp [ht]))
    simp [initList, hstep, hr]

/-- The forward loop on a fresh step that fails (returns `false` or
raises) followed by anything: one invocation event, loop stops, later
steps untouched. -/
theorem initList_fail_head (s : Step) (l₂ : List Step)
    (hf : s.m_isInitialized = false)
    (ho : s.initOutcome ≠ InitOutcome.retTrue) :
    initList (s :: l₂) = (s :: l₂, [Event.initCall s.id], false) := by
  have hstep := step_init_fail s hf ho
  simp [initList, hstep]

/-! ## Closed forms of the run methods -/

/-- Repeated `setFlag` keeps only the last value. -/
theorem setFlag_setFlag (s : Step) (b c : Bool) :
    setFlag (setFlag s b) c = setFlag s c := by
  cases s
  rfl

/-- Clearing the flags of freshly-succeeded steps restores the original
fresh steps. -/
theorem map_clear_after_set (l : List Step)
    (h : ∀ t ∈ l, t.m_isInitialized = false) :
    (l.map (fun t => setFlag t true)).map (fun s => setFlag s false) = l := by
  induction l with
  | nil => rfl
  | cons s rest ih =>
    have hs := h s (by simp)
    have hr := ih (fun t ht => h t (by simp [ht]))
    simp [setFlag_setFlag, setFlag_eq_self s hs, hr]

/-- The forward loop on an all-fresh, all-succeeding list. -/
theorem initList_all_good (l : List Step)
    (h : ∀ t ∈ l, t.m_isInitialized = false ∧ t.initOutcome = InitOutcome.retTrue) :
    initList l =
      (l.map (fun t => setFlag t true),
       l.map (fun t => Event.initCall t.id), true) := by
  have h1 := initList_append_good l [] h
  simp [initList] at h1
  simpa using h1

/-- `uninitAll` in terms of the loop `uninitList`. -/
theorem uninitAll_eq (r : SequentialRaii) :
    SequentialRaii.uninitAll r =
      (SequentialRaii.mk (uninitList r.m_steps).1, (uninitList r.m_steps).2) := by
  unfold SequentialRaii.uninitAll
  cases hu : uninitList r.m_steps with
  | mk l ev => simp

/-- `initAll` in terms of the loops `initList` and `uninitList`. -/
theorem initAll_eq (r : SequentialRaii) :
    SequentialRaii.initAll r =
      if (initList r.m_steps).2.2 then
        (SequentialRaii.mk (initList r.m_steps).1,
         (initList r.m_steps).2.1, true)
      else
        (SequentialRaii.mk (uninitList (initList r.m_steps).1).1,
         (initList r.m_steps).2.1 ++ (uninitList (initList r.m_steps).1).2,
         false) := by
  unfold SequentialRaii.initAll
  cases h : initList r.m_steps with
  | mk l p =>
    cases p with
    | mk ev b =>
      cases b with
      | true => simp
      | false =>
        cases hu : uninitList l with
        | mk l' ev2 => simp [hu]

/-- Closed form of a fully successful run: every fresh step is invoked
once in registration order, marked succeeded, and the run reports
`true` with no teardown. -/
theorem initAll_good (l : List Step)
    (h : ∀ t ∈ l, t.m_isInitialized = false ∧ t.initOutcome = InitOutcome.retTrue) :
    SequentialRaii.initAll (SequentialRaii.mk l) =
      (SequentialRaii.mk (l.map (fun t => setFlag t true)),
       l.map (fun t => Event.initCall t.id), true) := by
  rw [initAll_eq]
  simp [initList_all_good l h]

/-- Closed form of a failed run: with a fresh `retTrue` block `l₁`, a
fresh failing step `s` and a fresh tail `l₂`, the run invokes the init
actions of `l₁` in order, then the failing step's init action, then the
undo actions of `l₁` in reverse order; it ends with all original fresh
steps and reports `false`. -/
theorem initAll_fail (l₁ l₂ : List Step) (s : Step)
    (h₁ : ∀ t ∈ l₁, t.m_isInitialized = false ∧ t.initOutcome = InitOutcome.retTrue)
    (hs : s.m_isInitialized = false)
    (ho : s.initOutcome ≠ InitOutcome.retTrue)
    (h₂ : ∀ t ∈ l₂, t.m_isInitialized = false) :
    SequentialRaii.initAll (SequentialRaii.mk (l₁ ++ s :: l₂)) =
      (SequentialRaii.mk (l₁ ++ s :: l₂),
       (l₁.map (fun t => Event.initCall t.id) ++ [Event.initCall s.id]) ++
         (l₁.map (fun t => Event.undoCall t.id)).reverse,
       false) := by
  have hinit : initList (l₁ ++ s :: l₂) =
      (l₁.map (fun t => setFlag t true) ++ s :: l₂,
       l₁.map (fun t => Event.initCall t.id) ++ [Event.initCall s.id],
       false) := by
    have hgood := initList_append_good l₁ (s :: l₂) h₁
    rw [initList_fail_head s l₂ hs ho] at hgood
    simpa using hgood
  have htail : ∀ t ∈ s :: l₂, t.m_isInitialized = false := by
    intro t ht
    rw [List.mem_cons] at ht
    cases ht with
    | inl h => rw [h]; exact hs
    | inr h => exact h₂ t h
  have hsteps : (uninitList (l₁.map (fun t => setFlag t true) ++ s :: l₂)).1 =
      l₁ ++ s :: l₂ := by
    rw [uninitList_steps, List.map_append, map_clear_after_set l₁ (fun t ht => (h₁ t ht).1),
        map_setFlag_false_eq (s :: l₂) htail]
  have hfilter : (l₁.map (fun t => setFlag t true)).filter (fun s => s.m_isInitialized) =
      l₁.map (fun t => setFlag t true) := by
    rw [List.filter_eq_self]
    intro a ha
    rw [List.mem_map] at ha
    obtain ⟨t, _, rfl⟩ := ha
    simp [setFlag]
  have hev : (uninitList (l₁.map (fun t => setFlag t true) ++ s :: l₂)).2 =
      (l₁.map (fun t => Event.undoCall t.id)).reverse := by
    rw [uninitList_events, List.filter_append, hfilter, filter_flag_nil (s :: l₂) htail]
    simp [List.map_map, setFlag]
  rw [initAll_eq]
  simp only [hinit]
  simp [hsteps, hev]

/-! ## Observable state and further helpers -/

/-- Copy of a step with its scripted init outcome replaced. -/
def setOutcome (s : Step) (o : InitOutcome) : Step :=
  Step.mk s.id o s.undoThrows s.m_isInitialized

/-- Two step lists are observationally equal when they agree on step
identities and succeeded flags position by position. -/
def obsEq (L L' : List Step) : Prop :=
  L.map (fun s => (s.id, s.m_isInitialized)) =
    L'.map (fun s => (s.id, s.m_isInitialized))

/-- The undo events of a list are a function of identities and flags. -/
theorem filter_map_obs (L : List Step) :
    (L.filter (fun s => s.m_isInitialized)).map (fun s => Event.undoCall s.id) =
      ((L.map (fun s => (s.id, s.m_isInitialized))).filter (fun p => p.2)).map
        (fun p => Event.undoCall p.1) := by
  induction L with
  | nil => rfl
  | cons s rest ih =>
    cases hf : s.m_isInitialized <;> simp [List.filter_cons, hf, ih]

/-- Observationally equal lists produce the same backward-loop trace. -/
theorem uninitList_events_obs (L L' : List Step) (h : obsEq L L') :
    (uninitList L).2 = (uninitList L').2 := by
  rw [uninitList_events, uninitList_events, filter_map_obs, filter_map_obs]
  unfold obsEq at h
  rw [h]

/-- Observationally equal lists have equal succeeded-flag sequences. -/
theorem map_flag_of_obs (L L' : List Step) (h : obsEq L L') :
    L.map (fun s => s.m_isInitialized) = L'.map (fun s => s.m_isInitialized) := by
  unfold obsEq at h
  have h2 := congrArg (List.map Prod.snd) h
  simpa [List.map_map, Function.comp] using h2

/-- After the backward loop every flag reads `false`. -/
theorem map_flag_uninit (X : List Step) :
    ((uninitList X).1).map (fun s => s.m_isInitialized) =
      List.replicate X.length false := by
  rw [uninitList_steps, List.map_map, List.eq_replicate_iff]
  refine ⟨by simp, ?_⟩
  intro b hb
  rw [List.mem_map] at hb
  obtain ⟨t, _, rfl⟩ := hb
  rfl

/-- Steps whose flags were just cleared all read `false`. -/
theorem mem_map_setFlag_false (L : List Step) :
    ∀ t ∈ L.map (fun s => setFlag s false), t.m_isInitialized = false := by
  intro t ht
  rw [List.mem_map] at ht
  obtain ⟨x, _, rfl⟩ := ht
  simp [setFlag]

/-- `uninitAll` on a sequencer with no succeeded step is an observable
no-op. -/
theorem uninitAll_nop (r : SequentialRaii)
    (h : ∀ t ∈ r.m_steps, t.m_isInitialized = false) :
    SequentialRaii.uninitAll r = (r, []) := by
  cases r with
  | mk l => simp [uninitAll_eq, uninitList_nop l h]

/-- `moveAssign` in terms of the backward loop on the destination. -/
theorem moveAssign_eq (dest src : SequentialRaii) :
    SequentialRaii.moveAssign dest src =
      (SequentialRaii.mk src.m_steps,
       SequentialRaii.mk (uninitList dest.m_steps).1,
       (uninitList dest.m_steps).2) := by
  unfold SequentialRaii.moveAssign
  rw [uninitAll_eq]

/-- A list of all-`false` flags satisfies the consecutive-prefix shape
with prefix length 0. -/
theorem consecPrefixInv_all_false (L : List Step)
    (h : ∀ t ∈ L, t.m_isInitialized = false) : consecPrefixInv L := by
  refine ⟨0, Nat.zero_le _, ?_⟩
  simp only [List.replicate_zero, List.nil_append, Nat.sub_zero]
  rw [List.eq_replicate_iff]
  refine ⟨by simp, ?_⟩
  intro b hb
  rw [List.mem_map] at hb
  obtain ⟨t, ht, rfl⟩ := hb
  exact h t ht

/-- A list of all-`true` flags satisfies the consecutive-prefix shape
with prefix length `N`. -/
theorem consecPrefixInv_all_true (L : List Step)
    (h : ∀ t ∈ L, t.m_isInitialized = true) : consecPrefixInv L := by
  refine ⟨L.length, Nat.le_refl _, ?_⟩
  simp only [Nat.sub_self, List.replicate_zero, List.append_nil]
  rw [List.eq_replicate_iff]
  refine ⟨by simp, ?_⟩
  intro b hb
  rw [List.mem_map] at hb
  obtain ⟨t, ht, rfl⟩ := hb
  exact h t ht

/-- Replacing a step's scripted outcome `throws` by `retFalse` changes
neither the forward loop's trace nor its verdict, and yields
observationally equal step lists. -/
theorem initList_throw_retFalse (l₁ l₂ : List Step) (s : Step) :
    (initList (l₁ ++ setOutcome s InitOutcome.throws :: l₂)).2 =
      (initList (l₁ ++ setOutcome s InitOutcome.retFalse :: l₂)).2 ∧
    obsEq (initList (l₁ ++ setOutcome s InitOutcome.throws :: l₂)).1
      (initList (l₁ ++ setOutcome s InitOutcome.retFalse :: l₂)).1 := by
  induction l₁ with
  | nil =>
    simp only [List.nil_append]
    cases hf : s.m_isInitialized with
    | true =>
      have sT := step_init_skip (setOutcome s InitOutcome.throws) hf
      have sF := step_init_skip (setOutcome s InitOutcome.retFalse) hf
      cases hl : initList l₂ with
      | mk r' q =>
      cases q with
      | mk evr b =>
      constructor
      · simp [initList, sT, sF, hl]
      · simp only [initList, sT, sF, hl]
        simp [obsEq, setOutcome]
    | false =>
      have sT := initList_fail_head (setOutcome s InitOutcome.throws) l₂ hf
        (by simp [setOutcome])
      have sF := initList_fail_head (setOutcome s InitOutcome.retFalse) l₂ hf
        (by simp [setOutcome])
      constructor
      · rw [sT, sF]
        simp [setOutcome]
      · rw [sT, sF]
        simp [obsEq, setOutcome]
  | cons t rest ih =>
    simp only [List.cons_append]
    obtain ⟨ihev, ihobs⟩ := ih
    cases hi : Step.init t with
    | mk t' p =>
    cases p with
    | mk ev b =>
    cases b with
    | false =>
      constructor
      · simp [initList, hi]
      · simp only [initList, hi]
        unfold obsEq at ihobs ⊢
        simp [setOutcome]
    | true =>
      cases hT : initList (rest ++ setOutcome s InitOutcome.throws :: l₂) with
      | mk rT pT =>
      cases pT with
      | mk evT bT =>
      cases hF : initList (rest ++ setOutcome s InitOutcome.retFalse :: l₂) with
      | mk rF pF =>
      cases pF with
      | mk evF bF =>
      rw [hT, hF] at ihev ihobs
      simp only [Prod.mk.injEq] at ihev
      constructor
      · simp [initList, hi, hT, hF, ihev.1, ihev.2]
      · simp only [initList, hi, hT, hF]
        unfold obsEq at ihobs ⊢
        simp [ihobs]

/-! ## Claim theorems -/

/-- C1 counterexample: with one fresh step scripted to return `false`,
the first failing step is k = 0 and N = 1, so the claim as stated says
no step in k..N-1 = {0} ever has its init action invoked — yet the code
invokes step 0's init action (that is how it fails): the `initialize`
trace is exactly `[initCall 0]`, and it does contain that invocation. -/
theorem C1_claim_counterexample :
    (SequentialRaii.initAll (SequentialRaii.mk
        [Step.mk 0 InitOutcome.retFalse false false])).2.1 =
      [Event.initCall 0] ∧
    ¬ (Event.initCall 0 ∉ (SequentialRaii.initAll (SequentialRaii.mk
        [Step.mk 0 InitOutcome.retFalse false false])).2.1) := by
  decide

/-- C1 (amended): write the fresh registered steps as `l₁ ++ s :: l₂`,
where every step of `l₁` (steps 0..k-1) is fresh and succeeds and `s`
(step k) is fresh and the first whose init action fails — by returning
`false` or by raising.  Then `initialize` emits exactly: the init
invocations of steps 0..k-1 in registration order once each, one init
invocation of step k, and the undo invocations of steps 0..k-1 in
reverse order (k-1 down to 0) once each; no init action of any step of
`l₂` (steps k+1..N-1) is ever invoked (the trace contains nothing
else); and it returns `false`. -/
theorem C1_first_failure_rollback (l₁ l₂ : List Step) (s : Step)
    (h₁ : ∀ t ∈ l₁, t.m_isInitialized = false ∧ t.initOutcome = InitOutcome.retTrue)
    (hs : s.m_isInitialized = false)
    (ho : s.initOutcome ≠ InitOutcome.retTrue)
    (h₂ : ∀ t ∈ l₂, t.m_isInitialized = false) :
    (SequentialRaii.initAll (SequentialRaii.mk (l₁ ++ s :: l₂))).2.2 = false ∧
    (SequentialRaii.initAll (SequentialRaii.mk (l₁ ++ s :: l₂))).2.1 =
      (l₁.map (fun t => Event.initCall t.id) ++ [Event.initCall s.id]) ++
        (l₁.map (fun t => Event.undoCall t.id)).reverse := by
  rw [initAll_fail l₁ l₂ s h₁ hs ho h₂]
  exact ⟨rfl, rfl⟩

/-- Witness for C1 (amended): three fresh steps with the middle one
raising; init actions 0 and 1 fire once each, undo action 0 fires, and
the run reports `false`. -/
theorem C1_first_failure_rollback_witness :
    (∀ t ∈ [Step.mk 0 InitOutcome.retTrue false false],
        t.m_isInitialized = false ∧ t.initOutcome = InitOutcome.retTrue) ∧
    (Step.mk 1 InitOutcome.throws false false).m_isInitialized = false ∧
    (Step.mk 1 InitOutcome.throws false false).initOutcome ≠ InitOutcome.retTrue ∧
    (∀ t ∈ [Step.mk 2 InitOutcome.retTrue false false],
        t.m_isInitialized = false) ∧
    ((SequentialRaii.initAll (SequentialRaii.mk
        ([Step.mk 0 InitOutcome.retTrue false false] ++
          Step.mk 1 InitOutcome.throws false false ::
          [Step.mk 2 InitOutcome.retTrue false false]))).2.2 = false ∧
     (SequentialRaii.initAll (SequentialRaii.mk
        ([Step.mk 0 InitOutcome.retTrue false false] ++
          Step.mk 1 InitOutcome.throws false false ::
          [Step.mk 2 InitOutcome.retTrue false false]))).2.1 =
      ([Step.mk 0 InitOutcome.retTrue false false].map
          (fun t => Event.initCall t.id) ++
        [Event.initCall (Step.mk 1 InitOutcome.throws false false).id]) ++
        ([Step.mk 0 InitOutcome.retTrue false false].map
          (fun t => Event.undoCall t.id)).reverse) :=
  ⟨by decide, by decide, by decide, by decide,
   C1_first_failure_rollback
     [Step.mk 0 InitOutcome.retTrue false false]
     [Step.mk 2 InitOutcome.retTrue false false]
     (Step.mk 1 InitOutcome.throws false false)
     (by decide) (by decide) (by decide) (by decide)⟩

/-- C2: for any N ≥ 0 fresh registered steps that all succeed,
`initialize` invokes the init actions in registration order 0..N-1
exactly once each (the trace is exactly those invocations in order),
invokes no undo action, and returns `true`. -/
theorem C2_all_success (l : List Step)
    (h : ∀ t ∈ l, t.m_isInitialized = false ∧ t.initOutcome = InitOutcome.retTrue) :
    (SequentialRaii.initAll (SequentialRaii.mk l)).2.2 = true ∧
    (SequentialRaii.initAll (SequentialRaii.mk l)).2.1 =
      l.map (fun t => Event.initCall t.id) ∧
    ∀ n, Event.undoCall n ∉ (SequentialRaii.initAll (SequentialRaii.mk l)).2.1 := by
  rw [initAll_good l h]
  refine ⟨rfl, rfl, ?_⟩
  intro n hmem
  simp at hmem

/-- Witness for C2: two fresh succeeding steps; init actions fire in
order 0, 1 and the run reports `true`. -/
theorem C2_all_success_witness :
    (∀ t ∈ [Step.mk 0 InitOutcome.retTrue false false,
            Step.mk 1 InitOutcome.retTrue false false],
        t.m_isInitialized = false ∧ t.initOutcome = InitOutcome.retTrue) ∧
    ((SequentialRaii.initAll (SequentialRaii.mk
        [Step.mk 0 InitOutcome.retTrue false false,
         Step.mk 1 InitOutcome.retTrue false false])).2.2 = true ∧
     (SequentialRaii.initAll (SequentialRaii.mk
        [Step.mk 0 InitOutcome.retTrue false false,
         Step.mk 1 InitOutcome.retTrue false false])).2.1 =
      [Step.mk 0 InitOutcome.retTrue false false,
       Step.mk 1 InitOutcome.retTrue false false].map
        (fun t => Event.initCall t.id) ∧
     ∀ n, Event.undoCall n ∉ (SequentialRaii.initAll (SequentialRaii.mk
        [Step.mk 0 InitOutcome.retTrue false false,
         Step.mk 1 InitOutcome.retTrue false false])).2.1) :=
  ⟨by decide,
   C2_all_success
     [Step.mk 0 InitOutcome.retTrue false false,
      Step.mk 1 InitOutcome.retTrue false false]
     (by decide)⟩

/-- C4: for any sequencer state, `uninitialize` invokes undo actions
exactly for the steps whose succeeded flag is `true`, in strict reverse
registration order, once each per call; it clears every flag, and a
second consecutive call invokes no undo action and changes no state. -/
theorem C4_uninit_reverse_idempotent (r : SequentialRaii) :
    (SequentialRaii.uninitAll r).2 =
      ((r.m_steps.filter (fun s => s.m_isInitialized)).map
        (fun s => Event.undoCall s.id)).reverse ∧
    ((SequentialRaii.uninitAll r).1).m_steps =
      r.m_steps.map (fun s => setFlag s false) ∧
    SequentialRaii.uninitAll ((SequentialRaii.uninitAll r).1) =
      ((SequentialRaii.uninitAll r).1, []) := by
  have hsteps : ((SequentialRaii.uninitAll r).1).m_steps =
      r.m_steps.map (fun s => setFlag s false) := by
    rw [uninitAll_eq, uninitList_steps]
  refine ⟨?_, hsteps, ?_⟩
  · rw [uninitAll_eq, uninitList_events]
  · apply uninitAll_nop
    rw [hsteps]
    exact mem_map_setFlag_false r.m_steps

/-- C8: `Step::uninit` swallows any error the undo action raises and
never itself surfaces one — whether the stored undo action raises
(`b = true`) or not, the observable behaviour is identical: the
succeeded flag is set to `false` regardless, and the undo action runs
exactly when the flag was `true`.  In the embedding the error returned
by `runUndoAction` is discarded by the catch-all and `Step.uninit` is a
total function, so no error can escape. -/
theorem C8_uninit_never_raises (s : Step) (b : Bool) :
    ((Step.uninit (Step.mk s.id s.initOutcome b s.m_isInitialized)).1).m_isInitialized
        = false ∧
    (Step.uninit (Step.mk s.id s.initOutcome b s.m_isInitialized)).2 =
      (if s.m_isInitialized then [Event.undoCall s.id] else []) := by
  rw [step_uninit_eq]
  exact ⟨rfl, rfl⟩

/-- `initAll` on a sequencer whose steps all carry a `true` flag skips
every init action: no event, state unchanged, returns `true`. -/
theorem initAll_skip (r : SequentialRaii)
    (h : ∀ t ∈ r.m_steps, t.m_isInitialized = true) :
    SequentialRaii.initAll r = (r, [], true) := by
  cases r with
  | mk X => simp [SequentialRaii.initAll, initList_all_skip X h]

/-- C3 counterexample: move-assigning into a destination that already
holds a step does not leave the source empty — `std::swap` hands the
destination's old (torn-down) step list to the source, so the source
ends up holding one step, not none. -/
theorem C3_claim_counterexample :
    ((SequentialRaii.moveAssign
        (SequentialRaii.mk [Step.mk 0 InitOutcome.retTrue false true])
        (SequentialRaii.mk [])).2.1).m_steps ≠ [] := by
  decide

/-- C3 (amended): ownership transfer first runs the destination's
teardown on its previously accumulated steps (the emitted trace is the
destination's reverse-order undo trace), then transfers the full
ordered step collection including each step's succeeded flag to the
destination; the source is left with the destination's previous step
collection with every succeeded flag cleared — empty in the case of
move construction — so the source's subsequent end-of-life teardown
invokes no undo action. -/
theorem C3_move_transfer (dest src : SequentialRaii) :
    (SequentialRaii.moveAssign dest src).2.2 =
      ((dest.m_steps.filter (fun s => s.m_isInitialized)).map
        (fun s => Event.undoCall s.id)).reverse ∧
    ((SequentialRaii.moveAssign dest src).1).m_steps = src.m_steps ∧
    ((SequentialRaii.moveAssign dest src).2.1).m_steps =
      dest.m_steps.map (fun s => setFlag s false) ∧
    SequentialRaii.destruct ((SequentialRaii.moveAssign dest src).2.1) = [] ∧
    ((SequentialRaii.moveConstruct src).1).m_steps = src.m_steps ∧
    ((SequentialRaii.moveConstruct src).2.1).m_steps = [] := by
  have hall : ∀ t ∈ ((SequentialRaii.moveAssign dest src).2.1).m_steps,
      t.m_isInitialized = false := by
    rw [moveAssign_eq]
    show ∀ t ∈ (uninitList dest.m_steps).1, t.m_isInitialized = false
    rw [uninitList_steps]
    exact mem_map_setFlag_false _
  refine ⟨?_, ?_, ?_, ?_, rfl, rfl⟩
  · rw [moveAssign_eq, uninitList_events]
  · rw [moveAssign_eq]
  · rw [moveAssign_eq, uninitList_steps]
  · unfold SequentialRaii.destruct
    rw [uninitAll_nop _ hall]

/-- C6: after `initialize` returns `false`, every step's succeeded flag
is `false`, and a subsequent `uninitialize` invokes no undo action and
changes no state — calling it after a failed run is always safe. -/
theorem C6_failed_init_safe (l : List Step)
    (h : (SequentialRaii.initAll (SequentialRaii.mk l)).2.2 = false) :
    (∀ t ∈ ((SequentialRaii.initAll (SequentialRaii.mk l)).1).m_steps,
        t.m_isInitialized = false) ∧
    SequentialRaii.uninitAll ((SequentialRaii.initAll (SequentialRaii.mk l)).1) =
      ((SequentialRaii.initAll (SequentialRaii.mk l)).1, []) := by
  have hb : (initList (SequentialRaii.mk l).m_steps).2.2 = false := by
    cases hbb : (initList (SequentialRaii.mk l).m_steps).2.2 with
    | false => rfl
    | true =>
      rw [initAll_eq, hbb] at h
      simp at h
  have hall : ∀ t ∈ ((SequentialRaii.initAll (SequentialRaii.mk l)).1).m_steps,
      t.m_isInitialized = false := by
    rw [initAll_eq, hb]
    simp only [Bool.false_eq_true, if_false]
    show ∀ t ∈ (uninitList (initList (SequentialRaii.mk l).m_steps).1).1,
        t.m_isInitialized = false
    rw [uninitList_steps]
    exact mem_map_setFlag_false _
  exact ⟨hall, uninitAll_nop _ hall⟩

/-- Witness for C6: one fresh step that returns `false`. -/
theorem C6_failed_init_safe_witness :
    (SequentialRaii.initAll (SequentialRaii.mk
        [Step.mk 0 InitOutcome.retFalse false false])).2.2 = false ∧
    ((∀ t ∈ ((SequentialRaii.initAll (SequentialRaii.mk
          [Step.mk 0 InitOutcome.retFalse false false])).1).m_steps,
        t.m_isInitialized = false) ∧
     SequentialRaii.uninitAll ((SequentialRaii.initAll (SequentialRaii.mk
          [Step.mk 0 InitOutcome.retFalse false false])).1) =
      ((SequentialRaii.initAll (SequentialRaii.mk
          [Step.mk 0 InitOutcome.retFalse false false])).1, [])) :=
  ⟨by decide,
   C6_failed_init_safe [Step.mk 0 InitOutcome.retFalse false false] (by decide)⟩

/-- C9: the destructor's body is exactly `uninitialize` (for every
sequencer the destructor trace is the `uninitialize` trace), and the
concrete scenario holds: construct a sequencer, add one step whose undo
action records an event, run `initialize` (reports `true`), and the
end-of-life teardown fires that undo action — the flag-setting undo is
observed exactly once. -/
theorem C9_destructor_teardown (r : SequentialRaii) :
    SequentialRaii.destruct r = (SequentialRaii.uninitAll r).2 ∧
    ((SequentialRaii.initAll (SequentialRaii.addStep (SequentialRaii.mk [])
        0 InitOutcome.retTrue false)).2.2 = true ∧
     SequentialRaii.destruct ((SequentialRaii.initAll (SequentialRaii.addStep
        (SequentialRaii.mk []) 0 InitOutcome.retTrue false)).1) =
      [Event.undoCall 0]) :=
  ⟨rfl, by decide, by decide⟩

/-- C10: once `initialize` has returned `true`, running it again
invokes no init action (each step's `init` skips its stored action
because the succeeded flag is set), changes no state, and returns
`true`. -/
theorem C10_repeat_after_success (r : SequentialRaii)
    (h : (SequentialRaii.initAll r).2.2 = true) :
    SequentialRaii.initAll ((SequentialRaii.initAll r).1) =
      ((SequentialRaii.initAll r).1, [], true) := by
  have hb : (initList r.m_steps).2.2 = true := by
    cases hbb : (initList r.m_steps).2.2 with
    | true => rfl
    | false =>
      rw [initAll_eq, hbb] at h
      simp at h
  have hsteps : (SequentialRaii.initAll r).1 =
      SequentialRaii.mk (initList r.m_steps).1 := by
    rw [initAll_eq, hb]
    simp
  have hflags : ∀ t ∈ (initList r.m_steps).1, t.m_isInitialized = true :=
    initList_true_flags r.m_steps hb
  rw [hsteps, initAll_skip (SequentialRaii.mk (initList r.m_steps).1) hflags]

/-- Witness for C10: one fresh succeeding step; after the first
successful run, a second run is an observable no-op returning `true`. -/
theorem C10_repeat_after_success_witness :
    (SequentialRaii.initAll (SequentialRaii.mk
        [Step.mk 0 InitOutcome.retTrue false false])).2.2 = true ∧
    SequentialRaii.initAll ((SequentialRaii.initAll (SequentialRaii.mk
        [Step.mk 0 InitOutcome.retTrue false false])).1) =
      ((SequentialRaii.initAll (SequentialRaii.mk
        [Step.mk 0 InitOutcome.retTrue false false])).1, [], true) :=
  ⟨by decide,
   C10_repeat_after_success (SequentialRaii.mk
     [Step.mk 0 InitOutcome.retTrue false false]) (by decide)⟩

/-- `initAll_eq` specialised to an explicit step list. -/
theorem initAll_mk (l : List Step) :
    SequentialRaii.initAll (SequentialRaii.mk l) =
      if (initList l).2.2 then
        (SequentialRaii.mk (initList l).1, (initList l).2.1, true)
      else
        (SequentialRaii.mk (uninitList (initList l).1).1,
         (initList l).2.1 ++ (uninitList (initList l).1).2, false) :=
  initAll_eq (SequentialRaii.mk l)

/-- C5: an init action that fails by raising is externally
indistinguishable from one that fails by returning `false`: with the
same surrounding steps, `initialize` emits the same trace (hence the
same rollback sequence of undo invocations in the same order), returns
the same Boolean, and leaves every step's succeeded flag the same.  No
error escapes `initialize`: in the embedding the raise is an
`Except.error` that `Step.init` catches, and `initAll` is total. -/
theorem C5_throw_vs_false_transparent (l₁ l₂ : List Step) (s : Step) :
    (SequentialRaii.initAll (SequentialRaii.mk
        (l₁ ++ setOutcome s InitOutcome.throws :: l₂))).2.1 =
      (SequentialRaii.initAll (SequentialRaii.mk
        (l₁ ++ setOutcome s InitOutcome.retFalse :: l₂))).2.1 ∧
    (SequentialRaii.initAll (SequentialRaii.mk
        (l₁ ++ setOutcome s InitOutcome.throws :: l₂))).2.2 =
      (SequentialRaii.initAll (SequentialRaii.mk
        (l₁ ++ setOutcome s InitOutcome.retFalse :: l₂))).2.2 ∧
    ((SequentialRaii.initAll (SequentialRaii.mk
        (l₁ ++ setOutcome s InitOutcome.throws :: l₂))).1).m_steps.map
        (fun t => t.m_isInitialized) =
      ((SequentialRaii.initAll (SequentialRaii.mk
        (l₁ ++ setOutcome s InitOutcome.retFalse :: l₂))).1).m_steps.map
        (fun t => t.m_isInitialized) := by
  obtain ⟨hev, hobs⟩ := initList_throw_retFalse l₁ l₂ s
  have htr : (initList (l₁ ++ setOutcome s InitOutcome.throws :: l₂)).2.1 =
      (initList (l₁ ++ setOutcome s InitOutcome.retFalse :: l₂)).2.1 := by
    rw [hev]
  have hb : (initList (l₁ ++ setOutcome s InitOutcome.throws :: l₂)).2.2 =
      (initList (l₁ ++ setOutcome s InitOutcome.retFalse :: l₂)).2.2 := by
    rw [hev]
  have hflags := map_flag_of_obs _ _ hobs
  have hlen : (initList (l₁ ++ setOutcome s InitOutcome.throws :: l₂)).1.length =
      (initList (l₁ ++ setOutcome s InitOutcome.retFalse :: l₂)).1.length := by
    have h2 := congrArg List.length hflags
    simpa using h2
  have huev := uninitList_events_obs _ _ hobs
  simp only [initAll_mk]
  cases hc : (initList (l₁ ++ setOutcome s InitOutcome.retFalse :: l₂)).2.2 with
  | true =>
    rw [hc] at hb
    simp only [hb, if_true]
    exact ⟨htr, trivial, hflags⟩
  | false =>
    rw [hc] at hb
    simp only [hb, Bool.false_eq_true, if_false]
    refine ⟨?_, trivial, ?_⟩
    · rw [htr, huev]
    · show ((uninitList (initList (l₁ ++ setOutcome s InitOutcome.throws :: l₂)).1).1).map
          (fun t => t.m_isInitialized) =
        ((uninitList (initList (l₁ ++ setOutcome s InitOutcome.retFalse :: l₂)).1).1).map
          (fun t => t.m_isInitialized)
      rw [map_flag_uninit, map_flag_uninit, hlen]

/-- C7: the consecutive-prefix invariant — succeeded flags form a
contiguous prefix of the registration order — is preserved by every
operation observable at rest: appending a fresh step (`addStep`), a
full forward run (`initialize`, whose result is either all-succeeded or
all-fresh), teardown (`uninitialize`, all-fresh), and ownership
transfer (the destination receives the source's prefix state unchanged;
the old destination ends all-fresh). -/
theorem C7_consecutive_prefix (r r₂ : SequentialRaii) (n : Nat)
    (o : InitOutcome) (u : Bool)
    (h : consecPrefixInv r.m_steps) (h₂ : consecPrefixInv r₂.m_steps) :
    consecPrefixInv ((SequentialRaii.addStep r n o u).m_steps) ∧
    consecPrefixInv (((SequentialRaii.initAll r).1).m_steps) ∧
    consecPrefixInv (((SequentialRaii.uninitAll r).1).m_steps) ∧
    consecPrefixInv (((SequentialRaii.moveAssign r r₂).1).m_steps) ∧
    consecPrefixInv (((SequentialRaii.moveAssign r r₂).2.1).m_steps) := by
  obtain ⟨k, hk, hmap⟩ := h
  refine ⟨?_, ?_, ?_, ?_, ?_⟩
  · show consecPrefixInv (r.m_steps ++ [Step.mk n o u false])
    refine ⟨k, ?_, ?_⟩
    · simp only [List.length_append, List.length_cons, List.length_nil]
      omega
    · rw [List.map_append, hmap]
      simp only [List.map_cons, List.map_nil, List.length_append,
        List.length_cons, List.length_nil, List.append_assoc]
      congr 1
      rw [← List.replicate_succ']
      congr 1
      omega
  · rw [initAll_eq]
    cases hcc : (initList r.m_steps).2.2 with
    | true =>
      simp only [if_true]
      exact consecPrefixInv_all_true _ (initList_true_flags r.m_steps hcc)
    | false =>
      simp only [Bool.false_eq_true, if_false]
      refine consecPrefixInv_all_false _ ?_
      show ∀ t ∈ (uninitList (initList r.m_steps).1).1, t.m_isInitialized = false
      rw [uninitList_steps]
      exact mem_map_setFlag_false _
  · rw [uninitAll_eq]
    refine consecPrefixInv_all_false _ ?_
    show ∀ t ∈ (uninitList r.m_steps).1, t.m_isInitialized = false
    rw [uninitList_steps]
    exact mem_map_setFlag_false _
  · rw [moveAssign_eq]
    exact h₂
  · rw [moveAssign_eq]
    refine consecPrefixInv_all_false _ ?_
    show ∀ t ∈ (uninitList r.m_steps).1, t.m_isInitialized = false
    rw [uninitList_steps]
    exact mem_map_setFlag_false _

/-- Witness for C7: a sequencer holding one succeeded step (prefix
length 1) and an empty sequencer; all five operations preserve the
consecutive-prefix shape. -/
theorem C7_consecutive_prefix_witness :
    consecPrefixInv (SequentialRaii.mk
        [Step.mk 0 InitOutcome.retTrue false true]).m_steps ∧
    consecPrefixInv (SequentialRaii.mk ([] : List Step)).m_steps ∧
    (consecPrefixInv ((SequentialRaii.addStep (SequentialRaii.mk
        [Step.mk 0 InitOutcome.retTrue false true]) 1 InitOutcome.retFalse
        false).m_steps) ∧
     consecPrefixInv (((SequentialRaii.initAll (SequentialRaii.mk
        [Step.mk 0 InitOutcome.retTrue false true])).1).m_steps) ∧
     consecPrefixInv (((SequentialRaii.uninitAll (SequentialRaii.mk
        [Step.mk 0 InitOutcome.retTrue false true])).1).m_steps) ∧
     consecPrefixInv (((SequentialRaii.moveAssign (SequentialRaii.mk
        [Step.mk 0 InitOutcome.retTrue false true])
        (SequentialRaii.mk ([] : List Step))).1).m_steps) ∧
     consecPrefixInv (((SequentialRaii.moveAssign (SequentialRaii.mk
        [Step.mk 0 InitOutcome.retTrue false true])
        (SequentialRaii.mk ([] : List Step))).2.1).m_steps)) :=
  ⟨⟨1, by decide, by decide⟩, ⟨0, by decide, by decide⟩,
   C7_consecutive_prefix
     (SequentialRaii.mk [Step.mk 0 InitOutcome.retTrue false true])
     (SequentialRaii.mk ([] : List Step)) 1 InitOutcome.retFalse false
     ⟨1, by decide, by decide⟩ ⟨0, by decide, by decide⟩⟩
